import Mathlib

/-!
Verification development for the music runtime engine repository.

The JavaScript sources are shallowly embedded: machine floats are modelled by
exact rationals, JS Map objects by association lists in insertion order, and
every call to Math.random is modelled by an explicitly passed rational value
(one value per call site, so any concrete execution corresponds to some
choice of these parameters).
-/

/-- A track as read by the core engine.  The source Track model
(src/models/Track.js) carries further metadata fields (title, artist,
duration, url, album, artwork), but the selection engine and the queue read
only the id field, so only it is embedded. -/
structure Track where
  id : String
deriving DecidableEq

/-- Association list modelling a JS Map from track id to weight,
kept in insertion order. -/
abbrev WMap := List (String × ℚ)

/-- Map.get: the value at a key, none when absent. -/
def wget : WMap → String → Option ℚ
  | [], _ => none
  | (k, v) :: m, x => if k = x then some v else wget m x

/-- Map.set: replace the value at an existing key in place, append a new
key at the end (JS Map preserves insertion order). -/
def wset : WMap → String → ℚ → WMap
  | [], x, v => [(x, v)]
  | (k, w) :: m, x, v => if k = x then (x, v) :: m else (k, w) :: wset m x v

/-- Map.has. -/
def whas (m : WMap) (x : String) : Bool :=
  (wget m x).isSome

/-- The JS expression trackWeights.get(id) || baseWeight: an absent key gives
undefined (falsy) and the stored number 0 is also falsy, so both fall back
to the base weight 1.0. -/
def jsWeightOr (m : WMap) (x : String) (base : ℚ) : ℚ :=
  match wget m x with
  | none => base
  | some v => if v = 0 then base else v

/-- Array.prototype.indexOf, returning the index of the first occurrence
(none models the JS result -1). -/
def idxOf? : List String → String → Option ℕ
  | [], _ => none
  | a :: l, x => if a = x then some 0 else (idxOf? l x).map (· + 1)

/-- Listening context destructured by calculateProbabilities
(src/runtime/ProbabilityEngine.js line 43); the defaults are the JS
destructuring defaults.  The skipRate field is destructured in the source
but never used, so it is omitted. -/
structure Ctx where
  energy : ℚ := 1/2
  flow : ℚ := 1/2
  hour : ℤ := 12
deriving DecidableEq

/-- Feedback object destructured by updateTrackWeight
(src/runtime/ProbabilityEngine.js lines 122-127), with the JS defaults. -/
structure Feedback where
  listenPercentage : ℚ := 1
  skipped : Bool := false
  volumeChanges : ℤ := 0
  paused : Bool := false
deriving DecidableEq

/-- State of ProbabilityEngine (src/runtime/ProbabilityEngine.js):
trackWeights maps track id to weight, recentTracks holds recently selected
ids, most recent first.  baseWeight = 1.0, maxRecentTracks = 5,
MIN_WEIGHT = 0.1 and MAX_WEIGHT = 5.0 are inlined as literals below. -/
structure ProbabilityEngine where
  trackWeights : WMap := []
  recentTracks : List String := []
deriving DecidableEq

/-- ProbabilityEngine.initializeTracks: insert the base weight 1.0 for every
track id not already present; existing entries are untouched.
(Source name: initializeTracks.) -/
def initTracks (e : ProbabilityEngine) (tracks : List Track) : ProbabilityEngine :=
  { e with
    trackWeights :=
      tracks.foldl
        (fun m t => if whas m t.id then m else wset m t.id 1) e.trackWeights }

/-- The recency penalty factor of calculateProbabilities lines 52-56: when
the id occurs in recentTracks at index i the weight is multiplied by
1 - ((5 - i)/5) * 0.7; an absent id leaves the weight unchanged
(modelled as factor 1). -/
def recencyFactor (recent : List String) (x : String) : ℚ :=
  match idxOf? recent x with
  | none => 1
  | some i => 1 - ((5 - (i : ℚ)) / 5) * (7/10)

/-- Energy influence factor, line 60: 1 + (energy - 0.5) * 0.3. -/
def energyFactor (energy : ℚ) : ℚ :=
  1 + (energy - 1/2) * (3/10)

/-- Flow influence factor, lines 63-69: flow > 0.7 gives 1.2; flow < 0.3
gives 0.8 + Math.random() * 0.4 with r the random draw; otherwise 1
(no multiplication in the source). -/
def flowFactor (flow r : ℚ) : ℚ :=
  if 7/10 < flow then 6/5
  else if flow < 3/10 then 4/5 + r * (2/5)
  else 1

/-- ProbabilityEngine._getTimeWeight, lines 164-173. -/
def timeWeight (hour : ℤ) : ℚ :=
  if 6 ≤ hour ∧ hour < 12 then 1
  else if 12 ≤ hour ∧ hour < 18 then 11/10
  else if 18 ≤ hour ∧ hour < 24 then 6/5
  else 9/10

/-- The raw (pre-clamp) weight computed for one track inside the
calculateProbabilities loop, lines 48-73, with r the random value consumed
by the flow branch for this track. -/
def rawWeight (weights : WMap) (recent : List String) (c : Ctx) (r : ℚ) (t : Track) : ℚ :=
  jsWeightOr weights t.id 1 * recencyFactor recent t.id * energyFactor c.energy
    * flowFactor c.flow r * timeWeight c.hour

/-- Line 75: Math.max(weight, 0.01). -/
def clampedWeight (weights : WMap) (recent : List String) (c : Ctx) (r : ℚ) (t : Track) : ℚ :=
  max (rawWeight weights recent c r t) (1/100)

/-- The forEach loop of calculateProbabilities, lines 48-77: set the clamped
weight of each track into the probabilities map and accumulate the total.
The counter i indexes the random stream rng, one value per track. -/
def calcFold (weights : WMap) (recent : List String) (c : Ctx) (rng : ℕ → ℚ) :
    List Track → ℕ → WMap × ℚ → WMap × ℚ
  | [], _, acc => acc
  | t :: ts, i, (probs, total) =>
      let w := clampedWeight weights recent c (rng i) t
      calcFold weights recent c rng ts (i + 1) (wset probs t.id w, total + w)

/-- ProbabilityEngine.calculateProbabilities, lines 42-85: compute the
clamped weights, then normalize every entry by the accumulated total. -/
def calculateProbabilities (e : ProbabilityEngine) (tracks : List Track) (c : Ctx)
    (rng : ℕ → ℚ) : WMap :=
  let res := calcFold e.trackWeights e.recentTracks c rng tracks 0 ([], 0)
  res.1.map (fun p => (p.1, p.2 / res.2))

/-- ProbabilityEngine._recordSelection, lines 180-185: unshift the id, then
pop the last entry when the length exceeds maxRecentTracks = 5. -/
def recordSelection (e : ProbabilityEngine) (x : String) : ProbabilityEngine :=
  let l := x :: e.recentTracks
  { e with recentTracks := if 5 < l.length then l.dropLast else l }

/-- The cumulative walk of selectNextTrack, lines 100-108: accumulate each
probability (probabilities.get(track.id) || 0) and return the first track
whose cumulative sum exceeds the uniform draw. -/
def walkTracks (probs : WMap) (r : ℚ) : List Track → ℚ → Option Track
  | [], _ => none
  | t :: ts, cum =>
      let cum2 := cum + jsWeightOr probs t.id 0
      if r < cum2 then some t else walkTracks probs r ts cum2

/-- ProbabilityEngine.selectNextTrack, lines 93-114: null on an empty list,
otherwise a weighted draw over calculateProbabilities with fallback to the
last track, recording the selection; r is the uniform draw and rng feeds
the flow branch of calculateProbabilities.  Returns the selected track
together with the updated engine state. -/
def selectNextTrack (e : ProbabilityEngine) (tracks : List Track) (c : Ctx)
    (rng : ℕ → ℚ) (r : ℚ) : Option Track × ProbabilityEngine :=
  match tracks.getLast? with
  | none => (none, e)
  | some lastTrack =>
      let probs := calculateProbabilities e tracks c rng
      match walkTracks probs r tracks 0 with
      | some t => (some t, recordSelection e t.id)
      | none => (some lastTrack, recordSelection e lastTrack.id)

/-- ProbabilityEngine.updateTrackWeight, lines 121-156: multiplicative
feedback factors applied in source order, then the clamp
Math.max(MIN_WEIGHT, Math.min(w, MAX_WEIGHT)) with bounds [0.1, 5.0]. -/
def updateTrackWeight (e : ProbabilityEngine) (trackId : String) (fb : Feedback) :
    ProbabilityEngine :=
  let w0 := jsWeightOr e.trackWeights trackId 1
  let w1 := if 8/10 < fb.listenPercentage then w0 * (11/10) else w0
  let w2 := if fb.skipped then w1 * (6/10) else w1
  let w3 := if fb.paused then w2 * (9/10) else w2
  let w4 := if 3 < fb.volumeChanges then w3 * (21/20) else w3
  let w5 := max (1/10) (min w4 5)
  { e with trackWeights := wset e.trackWeights trackId w5 }

/-- JS array indexing l[i]: undefined (none) for a negative or out-of-range
index.  Playlist.getTrackByIndex (src/models/Track.js) is exactly
this.tracks[index], so it is modelled by jsIndex as well. -/
def jsIndex (l : List α) (i : ℤ) : Option α :=
  if 0 ≤ i then l[i.toNat]? else none

/-- Array.prototype.findIndex over tracks matched by id (none models -1). -/
def findIndexById : List Track → String → Option ℕ
  | [], _ => none
  | t :: ts, x => if t.id = x then some 0 else (findIndexById ts x).map (· + 1)

/-- State of QueueManager (src/core/QueueManager.js).  The playlist data
holder is embedded as its tracks sequence (Playlist.getTrackCount is the
length, Playlist.getTrackByIndex is plain array indexing).  The source
field named repeat is called repeatMode here because repeat is a reserved
word in Lean. -/
structure QueueManager where
  tracks : List Track := []
  currentIndex : ℤ := -1
  repeatMode : Bool := false
  shuffle : Bool := false
  shuffledIndices : List ℕ := []
  probabilityMode : Bool := false
  engine : ProbabilityEngine := {}
deriving DecidableEq

/-- QueueManager.getCurrentTrack, lines 67-73: null at index -1 or on an
empty playlist; in shuffle mode the current index is resolved through
shuffledIndices before the playlist lookup (an undefined permutation entry
makes the final lookup undefined as well). -/
def getCurrentTrack (q : QueueManager) : Option Track :=
  if q.currentIndex = -1 ∨ q.tracks.length = 0 then none
  else if q.shuffle then
    match jsIndex q.shuffledIndices q.currentIndex with
    | none => none
    | some j => jsIndex q.tracks (j : ℤ)
  else jsIndex q.tracks q.currentIndex

/-- The sequential / shuffle fallthrough of QueueManager.next,
lines 97-106: increment below the last index, else wrap to 0 under repeat,
else return null without mutating state. -/
def nextSequential (q : QueueManager) : Option Track × QueueManager :=
  if q.currentIndex < (q.tracks.length : ℤ) - 1 then
    let q2 := { q with currentIndex := q.currentIndex + 1 }
    (getCurrentTrack q2, q2)
  else if q.repeatMode then
    let q2 := { q with currentIndex := 0 }
    (getCurrentTrack q2, q2)
  else (none, q)

/-- QueueManager.next, lines 80-107: null on an empty playlist; when
probabilityMode is on and a context is supplied, delegate to
selectNextTrack and point currentIndex at the returned track (falling
through to the sequential advance if the draw or the index lookup fails);
otherwise advance sequentially.  rng and r model the random draws consumed
by the probability branch. -/
def next (q : QueueManager) (context : Option Ctx) (rng : ℕ → ℚ) (r : ℚ) :
    Option Track × QueueManager :=
  if q.tracks.length = 0 then (none, q)
  else
    match context, q.probabilityMode with
    | some c, true =>
        match selectNextTrack q.engine q.tracks c rng r with
        | (some t, eng2) =>
            let q1 := { q with engine := eng2 }
            match findIndexById q.tracks t.id with
            | some newIndex => (some t, { q1 with currentIndex := (newIndex : ℤ) })
            | none => nextSequential q1
        | (none, eng2) => nextSequential { q with engine := eng2 }
    | _, _ => nextSequential q

/-- QueueManager.previous, lines 113-127: decrement above index 0, else
wrap to the last index under repeat, else null without mutation. -/
def previous (q : QueueManager) : Option Track × QueueManager :=
  if q.tracks.length = 0 then (none, q)
  else if 0 < q.currentIndex then
    let q2 := { q with currentIndex := q.currentIndex - 1 }
    (getCurrentTrack q2, q2)
  else if q.repeatMode then
    let q2 := { q with currentIndex := (q.tracks.length : ℤ) - 1 }
    (getCurrentTrack q2, q2)
  else (none, q)

/-- QueueManager.jumpToTrack, lines 134-140. -/
def jumpToTrack (q : QueueManager) (index : ℤ) : Option Track × QueueManager :=
  if 0 ≤ index ∧ index < (q.tracks.length : ℤ) then
    let q2 := { q with currentIndex := index }
    (getCurrentTrack q2, q2)
  else (none, q)

/-- QueueManager.jumpToTrackById, lines 147-153: locate the id in the raw
track list and jump to that index. -/
def jumpToTrackById (q : QueueManager) (trackId : String) : Option Track × QueueManager :=
  match findIndexById q.tracks trackId with
  | some i => jumpToTrack q (i : ℤ)
  | none => (none, q)

/-- QueueManager.hasNext, lines 159-161. -/
def hasNext (q : QueueManager) : Bool :=
  decide (q.currentIndex < (q.tracks.length : ℤ) - 1) || q.repeatMode

/-- QueueManager.hasPrevious, lines 167-169. -/
def hasPrevious (q : QueueManager) : Bool :=
  decide (0 < q.currentIndex) || q.repeatMode

/-- A scheduled event of RuntimeClock (src/runtime/RuntimeClock.js lines
88-97): the generated id string, the internal firing time and the
triggered flag.  The callback itself is abstracted by the event id: firing
is observed as the id being reported by a tick. -/
structure ScheduledEvent where
  id : String
  time : ℚ
  triggered : Bool
deriving DecidableEq

/-- State of RuntimeClock.  Times are rationals: internalTime in seconds,
lastUpdate in milliseconds of wall-clock time.  The events list keeps
insertion order. -/
structure RuntimeClock where
  internalTime : ℚ := 0
  timeScale : ℚ := 1
  lastUpdate : ℚ := 0
  paused : Bool := false
  events : List ScheduledEvent := []
deriving DecidableEq

/-- RuntimeClock._processEvents, lines 111-126: every not-yet-triggered
event whose time has been reached is invoked (its id is reported, in list
order) and marked triggered; the final filter keeps exactly the untriggered
events whose time is still in the future.  Returns the remaining events
and the ids of the invoked callbacks. -/
def processEvents (evts : List ScheduledEvent) (currentTime : ℚ) :
    List ScheduledEvent × List String :=
  (evts.filter (fun e => !e.triggered && decide (currentTime < e.time)),
   (evts.filter (fun e => !e.triggered && decide (e.time ≤ currentTime))).map (·.id))

/-- RuntimeClock.tick, lines 27-39: a no-op while paused; otherwise credit
the wall-clock delta since lastUpdate scaled by timeScale to internalTime
and process the scheduled events.  The parameter now models Date.now() in
milliseconds; the fired callback ids are returned alongside the new
state. -/
def tick (c : RuntimeClock) (now : ℚ) : RuntimeClock × List String :=
  if c.paused then (c, [])
  else
    let deltaMs := now - c.lastUpdate
    let t2 := c.internalTime + (deltaMs / 1000) * c.timeScale
    let res := processEvents c.events t2
    ({ c with internalTime := t2, lastUpdate := now, events := res.1 }, res.2)

/-- RuntimeClock.scheduleEvent, lines 88-97: push a fresh untriggered event.
The unique id generated from Date.now() and Math.random() is modelled as
the externally supplied string eid. -/
def scheduleEvent (c : RuntimeClock) (time : ℚ) (eid : String) : RuntimeClock :=
  { c with events := c.events ++ [{ id := eid, time := time, triggered := false }] }

/-- RuntimeClock.cancelEvent, lines 103-105. -/
def cancelEvent (c : RuntimeClock) (eid : String) : RuntimeClock :=
  { c with events := c.events.filter (fun e => e.id ≠ eid) }

/-- A sequence of tick calls at the given Date.now() values, concatenating
the fired callback ids in order. -/
def runTicks : RuntimeClock → List ℚ → RuntimeClock × List String
  | c, [] => (c, [])
  | c, now :: rest =>
      let fst := tick c now
      let snd := runTicks fst.1 rest
      (snd.1, fst.2 ++ snd.2)

/-- The trajectory of internalTime values observed after each tick of a
run. -/
def internalTimes : RuntimeClock → List ℚ → List ℚ
  | _, [] => []
  | c, now :: rest =>
      let c1 := (tick c now).1
      c1.internalTime :: internalTimes c1 rest

/-- The metrics record of InteractionTracker (src/runtime/InteractionTracker.js
lines 21-27). -/
structure Metrics where
  volumeChangeFrequency : ℚ := 0
  pauseFrequency : ℚ := 0
  skipRate : ℚ := 0
  averageListenDuration : ℚ := 0
  interactionDensity : ℚ := 0
deriving DecidableEq

/-- State of InteractionTracker.  The metric computation reads only the
lengths of the volume-change, pause and skip logs and the percentage field
of the completion log, so the logs are embedded as the lists of event
timestamps (respectively completion percentages); all times are wall-clock
milliseconds. -/
structure InteractionTracker where
  volumeChanges : List ℚ := []
  pauses : List ℚ := []
  skips : List ℚ := []
  listenDurations : List ℚ := []
  lastInteractionTime : Option ℚ := none
  startTime : ℚ := 0
  metrics : Metrics := {}
deriving DecidableEq

/-- The recent-activity component of _updateMetrics, lines 144-150: with no
interaction yet the JS time-since is Infinity, which fails the 5-minute
test and drives Math.max(0, 1 - Infinity/30) to 0. -/
def recentActivity (lastInteraction : Option ℚ) (now : ℚ) : ℚ :=
  match lastInteraction with
  | none => 0
  | some ts =>
      let m := (now - ts) / 60000
      if m < 5 then 1 else max 0 (1 - m / 30)

/-- InteractionTracker._updateMetrics, lines 116-155, recomputing the five
metrics from the interaction logs at wall-clock time now.  Note that
averageListenDuration keeps its previous value when there is no completion
yet. -/
def updateMetrics (tr : InteractionTracker) (now : ℚ) : Metrics :=
  let runtimeMinutes := (now - tr.startTime) / 60000
  let runtimeHours := runtimeMinutes / 60
  let vcf := if 0 < runtimeMinutes then (tr.volumeChanges.length : ℚ) / runtimeMinutes else 0
  let pf := if 0 < runtimeHours then (tr.pauses.length : ℚ) / runtimeHours else 0
  let totalTracks := tr.listenDurations.length + tr.skips.length
  let sr := if 0 < totalTracks then ((tr.skips.length : ℚ) / (totalTracks : ℚ)) * 10 else 0
  let ald :=
    if 0 < tr.listenDurations.length then tr.listenDurations.sum / (tr.listenDurations.length : ℚ)
    else tr.metrics.averageListenDuration
  let volumeActivity := min (vcf / 2) 1
  let pauseActivity := min (pf / 3) 1
  { volumeChangeFrequency := vcf
    pauseFrequency := pf
    skipRate := sr
    averageListenDuration := ald
    interactionDensity := (recentActivity tr.lastInteractionTime now + volumeActivity + pauseActivity) / 3 }

/-- InteractionTracker.getEnergyLevel, lines 170-177. -/
def getEnergyLevel (m : Metrics) : ℚ :=
  max 0 (min 1 (m.interactionDensity - min (m.skipRate / 10) (3/10) - min (m.pauseFrequency / 10) (3/10)))

/-- InteractionTracker.getFlowState, lines 184-191. -/
def getFlowState (m : Metrics) : ℚ :=
  max 0 (min 1 (m.averageListenDuration * (4/10) + (1 - min m.interactionDensity 1) * (3/10)
    + (1 - min (m.skipRate / 10) 1) * (3/10)))

/-- Feedback carrying only skipped = true, as in the claim C3 call
updateTrackWeight(id, {skipped:true}); every other field keeps its JS
destructuring default, in particular listenPercentage = 1.0. -/
def fbSkip : Feedback := { skipped := true }

/-- The engine after three updateTrackWeight(id, {skipped:true}) calls on a
fresh engine, where the track starts at the default weight 1.0. -/
def engineAfterThreeSkips : ProbabilityEngine :=
  updateTrackWeight (updateTrackWeight (updateTrackWeight {} "t1" fbSkip) "t1" fbSkip) "t1" fbSkip

/-- C3 counterexample: after three updateTrackWeight(id, {skipped:true})
calls from the default weight 1.0 the stored weight is not 0.6 ^ 3 = 0.216;
it is 0.287496, because the omitted listenPercentage defaults to 1.0 > 0.8
and therefore also applies the 1.1 factor on every call. -/
theorem C3_triple_skip_not_216 :
    wget engineAfterThreeSkips.trackWeights "t1" ≠ some (216/1000) := by
  norm_num [engineAfterThreeSkips, updateTrackWeight, fbSkip, jsWeightOr, wget, wset]

/-- C3 (amended): three updateTrackWeight(id, {skipped:true}) calls on a
track starting at the default weight 1.0 store the weight
(1.1 * 0.6) ^ 3 = 0.66 ^ 3 = 0.287496 — the omitted listenPercentage
defaults to 1.0, which exceeds 0.8 and multiplies by 1.1 on each call as
well — and this value lies strictly inside the clamp bounds [0.1, 5.0], so
no clamping is triggered. -/
theorem C3_triple_skip_weight :
    wget engineAfterThreeSkips.trackWeights "t1" = some (35937/125000) ∧
    (35937/125000 : ℚ) = (11/10 * (6/10)) ^ 3 ∧
    (1/10 : ℚ) < 35937/125000 ∧ (35937/125000 : ℚ) < 5 := by
  refine ⟨?_, by norm_num, by norm_num, by norm_num⟩
  norm_num [engineAfterThreeSkips, updateTrackWeight, fbSkip, jsWeightOr, wget, wset]

/-- C9: for every interaction history (any tracker state, in particular the
empty one) and every wall-clock instant, getEnergyLevel and getFlowState of
the recomputed metrics are defined rational values lying in [0, 1]. -/
theorem C9_energy_flow_unit_interval (tr : InteractionTracker) (now : ℚ) :
    0 ≤ getEnergyLevel (updateMetrics tr now) ∧ getEnergyLevel (updateMetrics tr now) ≤ 1 ∧
    0 ≤ getFlowState (updateMetrics tr now) ∧ getFlowState (updateMetrics tr now) ≤ 1 := by
  refine ⟨le_max_left _ _, ?_, le_max_left _ _, ?_⟩ <;>
    exact max_le zero_le_one (min_le_left _ _)

/-- Queue used for claim C10: two tracks, shuffle enabled, and the shuffle
permutation that swaps the two positions. -/
def qC10 : QueueManager :=
  { tracks := [⟨"A"⟩, ⟨"B"⟩], shuffle := true, shuffledIndices := [1, 0] }

/-- C10: with shuffle enabled, jumpToTrackById sets currentIndex to the
position of the requested id in the raw track list but returns
getCurrentTrack, which resolves that index through the shuffle
permutation: on the two-track queue with the swap permutation, requesting
id A returns the track with id B (non-null, different id) while
currentIndex is set to the raw position 0 of A. -/
theorem C10_jump_by_id_shuffle_mismatch :
    (jumpToTrackById qC10 "A").1 = some ⟨"B"⟩ ∧
    (Track.mk "B").id ≠ "A" ∧
    (jumpToTrackById qC10 "A").2.currentIndex = 0 := by
  refine ⟨?_, by decide, ?_⟩ <;> rfl

/-- Membership after a Map.set: every entry of the updated map is an old
entry or the newly written binding. -/
theorem mem_wset {m : WMap} {x : String} {v : ℚ} {p : String × ℚ}
    (h : p ∈ wset m x v) : p ∈ m ∨ p = (x, v) := by
  induction m with
  | nil => simpa [wset] using h
  | cons q m ih =>
      obtain ⟨k, w⟩ := q
      by_cases hk : k = x
      · rw [wset, if_pos hk, List.mem_cons] at h
        rcases h with h | h
        · exact Or.inr h
        · exact Or.inl (List.mem_cons_of_mem _ h)
      · rw [wset, if_neg hk, List.mem_cons] at h
        rcases h with h | h
        · exact Or.inl (by rw [h]; exact List.mem_cons_self _ _)
        · rcases ih h with h2 | h2
          · exact Or.inl (List.mem_cons_of_mem _ h2)
          · exact Or.inr h2

/-- Map.get after a Map.set. -/
theorem wget_wset (m : WMap) (x : String) (v : ℚ) (y : String) :
    wget (wset m x v) y = if x = y then some v else wget m y := by
  induction m with
  | nil => simp [wset, wget]
  | cons q m ih =>
      obtain ⟨k, w⟩ := q
      by_cases hk : k = x
      · subst hk
        by_cases hy : k = y
        · simp [wset, wget, hy]
        · simp [wset, wget, hy]
      · by_cases hy : k = y
        · subst hy
          have hx : x ≠ k := fun h => hk h.symm
          simp [wset, wget, hk, hx]
        · simp [wset, wget, hk, hy, ih]

/-- One operation on the probability engine: a call of initializeTracks or
of updateTrackWeight with arbitrary feedback. -/
inductive EngineOp where
  | init (tracks : List Track)
  | update (trackId : String) (fb : Feedback)

/-- Apply one engine operation. -/
def applyOp (e : ProbabilityEngine) : EngineOp → ProbabilityEngine
  | .init ts => initTracks e ts
  | .update x fb => updateTrackWeight e x fb

/-- Run a sequence of engine operations from a given engine state. -/
def runOps (e : ProbabilityEngine) (ops : List EngineOp) : ProbabilityEngine :=
  ops.foldl applyOp e

/-- Every entry after initializeTracks is an old entry or carries the
default weight 1. -/
theorem initTracks_mem {e : ProbabilityEngine} {ts : List Track} {p : String × ℚ}
    (h : p ∈ (initTracks e ts).trackWeights) : p ∈ e.trackWeights ∨ p.2 = 1 := by
  unfold initTracks at h
  simp only at h
  induction ts generalizing e with
  | nil => exact Or.inl h
  | cons t ts ih =>
      simp only [List.foldl_cons] at h
      by_cases hc : whas e.trackWeights t.id
      · simpa [hc] using ih (e := e) (by simpa [hc] using h)
      · have h2 := ih (e := { e with trackWeights := wset e.trackWeights t.id 1 })
          (by simpa [hc] using h)
      
        rcases h2 with h2 | h2
        · rcases mem_wset h2 with h3 | h3
          · exact Or.inl h3
          · exact Or.inr (by rw [h3])
        · exact Or.inr h2

/-- initializeTracks never modifies an existing entry. -/
theorem initTracks_preserves {e : ProbabilityEngine} {ts : List Track} {x : String} {w : ℚ}
    (h : wget e.trackWeights x = some w) :
    wget (initTracks e ts).trackWeights x = some w := by
  unfold initTracks
  simp only
  induction ts generalizing e with
  | nil => exact h
  | cons t ts ih =>
      simp only [List.foldl_cons]
      by_cases hc : whas e.trackWeights t.id
      · simpa [hc] using ih (e := e) h
      · have hne : t.id ≠ x := by
          intro hx
          rw [hx] at hc
          simp [whas, h] at hc
        have h2 : wget (wset e.trackWeights t.id 1) x = some w := by
          rw [wget_wset]
          simp [hne, h]
        simpa [hc] using ih (e := { e with trackWeights := wset e.trackWeights t.id 1 }) h2

/-- Every entry after updateTrackWeight is an old entry or lies in the
clamp bounds [0.1, 5]. -/
theorem updateTrackWeight_mem {e : ProbabilityEngine} {x : String} {fb : Feedback}
    {p : String × ℚ} (h : p ∈ (updateTrackWeight e x fb).trackWeights) :
    p ∈ e.trackWeights ∨ (1/10 ≤ p.2 ∧ p.2 ≤ 5) := by
  unfold updateTrackWeight at h
  rcases mem_wset h with h2 | h2
  · exact Or.inl h2
  · refine Or.inr ?_
    rw [h2]
    constructor
    · exact le_max_left _ _
    · exact max_le (by norm_num) (min_le_right _ _)

/-- C4: under every sequence of initializeTracks and updateTrackWeight
calls starting from a fresh engine, every entry of the track-weight table
lies in [0.1, 5.0]; moreover initializeTracks never modifies an existing
entry and only ever inserts the default weight 1.0. -/
theorem C4_weight_table_bounds :
    (∀ ops : List EngineOp, ∀ p ∈ (runOps {} ops).trackWeights, 1/10 ≤ p.2 ∧ p.2 ≤ 5) ∧
    (∀ (e : ProbabilityEngine) (ts : List Track) (x : String) (w : ℚ),
      wget e.trackWeights x = some w → wget (initTracks e ts).trackWeights x = some w) ∧
    (∀ (e : ProbabilityEngine) (ts : List Track), ∀ p ∈ (initTracks e ts).trackWeights,
      p ∈ e.trackWeights ∨ p.2 = 1) := by
  refine ⟨?_, fun e ts x w h => initTracks_preserves h, fun e ts p h => initTracks_mem h⟩
  have key : ∀ (ops : List EngineOp) (e : ProbabilityEngine),
      (∀ p ∈ e.trackWeights, 1/10 ≤ p.2 ∧ p.2 ≤ 5) →
      ∀ p ∈ (runOps e ops).trackWeights, 1/10 ≤ p.2 ∧ p.2 ≤ 5 := by
    intro ops
    induction ops with
    | nil => intro e he p hp; exact he p hp
    | cons op ops ih =>
        intro e he p hp
        refine ih (applyOp e op) ?_ p (by simpa [runOps, List.foldl_cons] using hp)
        intro q hq
        cases op with
        | init ts =>
            rcases initTracks_mem (by simpa [applyOp] using hq) with h2 | h2
            · exact he q h2
            · rw [h2]; norm_num
        | update x fb =>
            rcases updateTrackWeight_mem (by simpa [applyOp] using hq) with h2 | h2
            · exact he q h2
            · exact h2
  intro ops p hp
  exact key ops {} (by simp) p hp

/-- C4 witness: a single updateTrackWeight with empty feedback stores the
weight 1.1 (default weight 1.0 times the high-listen factor), and the
invariant theorem yields its bounds. -/
theorem C4_weight_table_bounds_witness :
    ("a", (11/10 : ℚ)) ∈ (runOps {} [EngineOp.update "a" {}]).trackWeights ∧
    (1/10 ≤ (11/10 : ℚ) ∧ (11/10 : ℚ) ≤ 5) := by
  have hmem : ("a", (11/10 : ℚ)) ∈ (runOps {} [EngineOp.update "a" {}]).trackWeights := by
    norm_num [runOps, applyOp, updateTrackWeight, jsWeightOr, wget, wset]
  exact ⟨hmem, C4_weight_table_bounds.1 [EngineOp.update "a" {}] _ hmem⟩

/-- The cumulative walk only ever returns a member of the track list. -/
theorem walkTracks_mem {probs : WMap} {r : ℚ} :
    ∀ {ts : List Track} {cum : ℚ} {t : Track}, walkTracks probs r ts cum = some t → t ∈ ts := by
  intro ts
  induction ts with
  | nil => intro cum t h; simp [walkTracks] at h
  | cons u ts ih =>
      intro cum t h
      rw [walkTracks] at h
      split at h
      · exact (Option.some_inj.mp h) ▸ List.mem_cons_self _ _
      · exact List.mem_cons_of_mem _ (ih h)

/-- A getLast? hit is a member of the list. -/
theorem mem_of_getLast?_eq {l : List Track} {a : Track} (h : l.getLast? = some a) : a ∈ l := by
  obtain ⟨hne, rfl⟩ := List.mem_getLast?_eq_getLast (Option.mem_def.mpr h)
  exact List.getLast_mem hne

/-- _recordSelection under the length invariant: push-front capped at 5. -/
theorem recordSelection_recent {e : ProbabilityEngine} {x : String}
    (h5 : e.recentTracks.length ≤ 5) :
    (recordSelection e x).recentTracks = (x :: e.recentTracks).take 5 := by
  unfold recordSelection
  simp only
  by_cases hlen : 5 < (x :: e.recentTracks).length
  · rw [if_pos hlen, List.dropLast_eq_take]
    have : (x :: e.recentTracks).length = 6 := by
      simp only [List.length_cons] at hlen ⊢
      omega
    rw [this]
  · rw [if_neg hlen, List.take_of_length_le (by omega)]

/-- C2: selectNextTrack returns null exactly on the empty track list; on a
non-empty list it returns a member of the list (the cumulative walk with
fallback to the last track), and every successful selection is pushed to
the front of the recent-selection history, which stays capped at 5 entries
with the oldest dropped. -/
theorem C2_selectNextTrack_total (e : ProbabilityEngine) (tracks : List Track) (c : Ctx)
    (rng : ℕ → ℚ) (r : ℚ) (h5 : e.recentTracks.length ≤ 5) :
    ((selectNextTrack e tracks c rng r).1 = none ↔ tracks = []) ∧
    (∀ t, (selectNextTrack e tracks c rng r).1 = some t →
      t ∈ tracks ∧
      (selectNextTrack e tracks c rng r).2.recentTracks = (t.id :: e.recentTracks).take 5 ∧
      (selectNextTrack e tracks c rng r).2.recentTracks.length ≤ 5) := by
  cases hlast : tracks.getLast? with
  | none =>
      have heq : selectNextTrack e tracks c rng r = (none, e) := by
        simp only [selectNextTrack, hlast]
      rw [List.getLast?_eq_none_iff] at hlast
      subst hlast
      exact ⟨by simp [heq], fun t ht => by rw [heq] at ht; simp at ht⟩
  | some lastTrack =>
      have hne : tracks ≠ [] := by
        intro hnil
        rw [hnil] at hlast
        simp at hlast
      cases hwalk : walkTracks (calculateProbabilities e tracks c rng) r tracks 0 with
      | some u =>
          have heq : selectNextTrack e tracks c rng r = (some u, recordSelection e u.id) := by
            simp only [selectNextTrack, hlast, hwalk]
          rw [heq]
          refine ⟨by simp [hne], fun t ht => ?_⟩
          simp only [Option.some_inj] at ht
          subst ht
          refine ⟨walkTracks_mem hwalk, recordSelection_recent h5, ?_⟩
          rw [recordSelection_recent h5, List.length_take]
          omega
      | none =>
          have heq : selectNextTrack e tracks c rng r =
              (some lastTrack, recordSelection e lastTrack.id) := by
            simp only [selectNextTrack, hlast, hwalk]
          rw [heq]
          refine ⟨by simp [hne], fun t ht => ?_⟩
          simp only [Option.some_inj] at ht
          subst ht
          refine ⟨mem_of_getLast?_eq hlast, recordSelection_recent h5, ?_⟩
          rw [recordSelection_recent h5, List.length_take]
          omega

/-- C2 witness: on the singleton list the draw 0 selects the single track,
which lands at the front of the recent history. -/
theorem C2_selectNextTrack_total_witness :
    (⟨"A"⟩ : Track) ∈ ([⟨"A"⟩] : List Track) ∧
    (selectNextTrack {} [⟨"A"⟩] {} (fun _ => 0) 0).2.recentTracks = ["A"] := by
  have hsel : (selectNextTrack {} [⟨"A"⟩] {} (fun _ => 0) 0).1 = some ⟨"A"⟩ := by
    norm_num [selectNextTrack, calculateProbabilities, calcFold, clampedWeight, rawWeight,
      jsWeightOr, wget, wset, recencyFactor, idxOf?, energyFactor, flowFactor, timeWeight,
      walkTracks]
  have h := (C2_selectNextTrack_total {} [⟨"A"⟩] {} (fun _ => 0) 0 (by simp)).2 ⟨"A"⟩ hsel
  exact ⟨h.1, by rw [h.2.1]; rfl⟩

/-- Map.set on a fresh key appends the binding at the end. -/
theorem wset_eq_append {m : WMap} {x : String} (v : ℚ) (h : wget m x = none) :
    wset m x v = m ++ [(x, v)] := by
  induction m with
  | nil => rfl
  | cons q m ih =>
      obtain ⟨k, w⟩ := q
      by_cases hk : k = x
      · rw [wget, if_pos hk] at h
        exact absurd h (by simp)
      · rw [wget, if_neg hk] at h
        rw [wset, if_neg hk, ih h]
        rfl

/-- Map.get over an append whose left part misses the key. -/
theorem wget_append_of_none {m1 : WMap} {x : String} (m2 : WMap) (h : wget m1 x = none) :
    wget (m1 ++ m2) x = wget m2 x := by
  induction m1 with
  | nil => rfl
  | cons q m ih =>
      obtain ⟨k, w⟩ := q
      by_cases hk : k = x
      · rw [wget, if_pos hk] at h
        exact absurd h (by simp)
      · rw [wget, if_neg hk] at h
        rw [List.cons_append, wget, if_neg hk]
        exact ih h

/-- The clamped weights of a track list as a plain positional association
list, with i the index into the random stream of the first track. -/
def clampedList (w : WMap) (rc : List String) (c : Ctx) (rng : ℕ → ℚ) :
    List Track → ℕ → List (String × ℚ)
  | [], _ => []
  | t :: ts, i => (t.id, clampedWeight w rc c (rng i) t) :: clampedList w rc c rng ts (i + 1)

/-- Total clamped weight of a track list. -/
def sumClamped (w : WMap) (rc : List String) (c : Ctx) (rng : ℕ → ℚ)
    (ts : List Track) (i : ℕ) : ℚ :=
  ((clampedList w rc c rng ts i).map Prod.snd).sum

/-- The keys of the clamped-weight list are the track ids in order. -/
theorem clampedList_map_fst (w : WMap) (rc : List String) (c : Ctx) (rng : ℕ → ℚ) :
    ∀ (ts : List Track) (i : ℕ), (clampedList w rc c rng ts i).map Prod.fst = ts.map Track.id := by
  intro ts
  induction ts with
  | nil => intro i; rfl
  | cons t ts ih => intro i; simp [clampedList, ih]

/-- Every clamped weight is at least the floor 0.01. -/
theorem clampedList_ge (w : WMap) (rc : List String) (c : Ctx) (rng : ℕ → ℚ) :
    ∀ (ts : List Track) (i : ℕ), ∀ p ∈ clampedList w rc c rng ts i, 1/100 ≤ p.2 := by
  intro ts
  induction ts with
  | nil => intro i p hp; simp [clampedList] at hp
  | cons t ts ih =>
      intro i p hp
      rw [clampedList, List.mem_cons] at hp
      rcases hp with hp | hp
      · rw [hp]
        exact le_max_right _ _
      · exact ih (i + 1) p hp

/-- The total clamped weight is nonnegative. -/
theorem sumClamped_nonneg (w : WMap) (rc : List String) (c : Ctx) (rng : ℕ → ℚ) :
    ∀ (ts : List Track) (i : ℕ), 0 ≤ sumClamped w rc c rng ts i := by
  intro ts
  induction ts with
  | nil => intro i; simp [sumClamped, clampedList]
  | cons t ts ih =>
      intro i
      have h1 : (1 : ℚ)/100 ≤ clampedWeight w rc c (rng i) t := le_max_right _ _
      have h2 := ih (i + 1)
      simp only [sumClamped, clampedList, List.map_cons, List.sum_cons]
      simp only [sumClamped] at h2
      linarith

/-- The total clamped weight of a non-empty track list is positive. -/
theorem sumClamped_pos (w : WMap) (rc : List String) (c : Ctx) (rng : ℕ → ℚ)
    {ts : List Track} (i : ℕ) (hne : ts ≠ []) : 0 < sumClamped w rc c rng ts i := by
  cases ts with
  | nil => exact absurd rfl hne
  | cons t ts =>
      have h1 : (1 : ℚ)/100 ≤ clampedWeight w rc c (rng i) t := le_max_right _ _
      have h2 := sumClamped_nonneg w rc c rng ts (i + 1)
      simp only [sumClamped, clampedList, List.map_cons, List.sum_cons]
      simp only [sumClamped] at h2
      linarith

/-- The probabilities loop, in closed form: with pairwise distinct track
ids (every real JS Map key set is distinct, and the claims stipulate it)
the fold produces exactly the positional clamped-weight list and its
total. -/
theorem calcFold_eq {w : WMap} {rc : List String} {c : Ctx} {rng : ℕ → ℚ} :
    ∀ (ts : List Track) (i : ℕ) (probs : WMap) (total : ℚ),
    (∀ t ∈ ts, wget probs t.id = none) → (ts.map Track.id).Nodup →
    calcFold w rc c rng ts i (probs, total) =
      (probs ++ clampedList w rc c rng ts i, total + sumClamped w rc c rng ts i) := by
  intro ts
  induction ts with
  | nil => intro i probs total _ _; simp [calcFold, clampedList, sumClamped]
  | cons t ts ih =>
      intro i probs total hfresh hnd
      rw [List.map_cons, List.nodup_cons] at hnd
      have hfresh2 : ∀ u ∈ ts, wget (wset probs t.id (clampedWeight w rc c (rng i) t)) u.id = none := by
        intro u hu
        rw [wget_wset]
        have hne : t.id ≠ u.id := by
          intro hbad
          refine hnd.1 ?_
          rw [hbad]
          exact List.mem_map_of_mem Track.id hu
        rw [if_neg hne]
        exact hfresh u (List.mem_cons_of_mem _ hu)
      have hstep : calcFold w rc c rng (t :: ts) i (probs, total) =
          calcFold w rc c rng ts (i + 1)
            (wset probs t.id (clampedWeight w rc c (rng i) t),
             total + clampedWeight w rc c (rng i) t) := rfl
      rw [hstep, ih (i + 1) _ _ hfresh2 hnd.2,
        wset_eq_append _ (hfresh t (List.mem_cons_self _ _))]
      simp only [clampedList, sumClamped, List.map_cons, List.sum_cons, List.append_assoc,
        List.singleton_append, Prod.mk.injEq]
      exact ⟨trivial, by ring⟩

/-- calculateProbabilities in closed form under distinct track ids: each
clamped weight divided by the total. -/
theorem calculateProbabilities_eq (e : ProbabilityEngine) (tracks : List Track) (c : Ctx)
    (rng : ℕ → ℚ) (hnd : (tracks.map Track.id).Nodup) :
    calculateProbabilities e tracks c rng =
      (clampedList e.trackWeights e.recentTracks c rng tracks 0).map
        (fun p => (p.1, p.2 / sumClamped e.trackWeights e.recentTracks c rng tracks 0)) := by
  unfold calculateProbabilities
  rw [calcFold_eq tracks 0 [] 0 (fun t _ => rfl) hnd]
  simp

/-- Summing an association list after dividing every value by d divides the
sum of values by d. -/
theorem sum_map_div (l : List (String × ℚ)) (d : ℚ) :
    ((l.map (fun p => (p.1, p.2 / d))).map Prod.snd).sum = ((l.map Prod.snd).sum) / d := by
  induction l with
  | nil => simp
  | cons p l ih => simp only [List.map_cons, List.sum_cons, ih, add_div]

/-- C1: for every engine state, non-empty track list with distinct ids,
context and random stream, calculateProbabilities returns a map keyed by
exactly the given track ids, whose values are all nonnegative, whose
pre-normalization clamped weights are all at least 0.01, and whose values
sum to 1 within 1e-9 (here: exactly 1, since the embedding computes with
exact rationals). -/
theorem C1_probabilities_normalized (e : ProbabilityEngine) (tracks : List Track) (c : Ctx)
    (rng : ℕ → ℚ) (hne : tracks ≠ []) (hnd : (tracks.map Track.id).Nodup) :
    ((calculateProbabilities e tracks c rng).map Prod.fst = tracks.map Track.id) ∧
    (∀ p ∈ calculateProbabilities e tracks c rng, 0 ≤ p.2) ∧
    (∀ p ∈ (calcFold e.trackWeights e.recentTracks c rng tracks 0 ([], 0)).1, 1/100 ≤ p.2) ∧
    |((calculateProbabilities e tracks c rng).map Prod.snd).sum - 1| ≤ 1/1000000000 := by
  have hpos := sumClamped_pos e.trackWeights e.recentTracks c rng 0 hne
  refine ⟨?_, ?_, ?_, ?_⟩
  · rw [calculateProbabilities_eq e tracks c rng hnd, List.map_map]
    have : (Prod.fst ∘ fun p : String × ℚ =>
        (p.1, p.2 / sumClamped e.trackWeights e.recentTracks c rng tracks 0)) = Prod.fst := by
      funext p
      rfl
    rw [this]
    exact clampedList_map_fst _ _ _ _ tracks 0
  · intro p hp
    rw [calculateProbabilities_eq e tracks c rng hnd] at hp
    rw [List.mem_map] at hp
    obtain ⟨q, hq, rfl⟩ := hp
    have h1 : (1 : ℚ)/100 ≤ q.2 := clampedList_ge _ _ _ _ tracks 0 q hq
    exact div_nonneg (by linarith) (le_of_lt hpos)
  · intro p hp
    rw [calcFold_eq tracks 0 [] 0 (fun t _ => rfl) hnd] at hp
    simp only [List.nil_append] at hp
    exact clampedList_ge _ _ _ _ tracks 0 p hp
  · rw [calculateProbabilities_eq e tracks c rng hnd, sum_map_div]
    have hfold : (List.map Prod.snd (clampedList e.trackWeights e.recentTracks c rng tracks 0)).sum
        = sumClamped e.trackWeights e.recentTracks c rng tracks 0 := rfl
    rw [hfold, div_self (ne_of_gt hpos)]
    norm_num

/-- C1 witness: a concrete two-track list with the default context. -/
theorem C1_probabilities_normalized_witness :
    (([⟨"A"⟩, ⟨"B"⟩] : List Track) ≠ [] ∧ (([⟨"A"⟩, ⟨"B"⟩] : List Track).map Track.id).Nodup) ∧
    ((calculateProbabilities {} [⟨"A"⟩, ⟨"B"⟩] {} (fun _ => 0)).map Prod.fst =
      ([⟨"A"⟩, ⟨"B"⟩] : List Track).map Track.id) ∧
    |((calculateProbabilities {} [⟨"A"⟩, ⟨"B"⟩] {} (fun _ => 0)).map Prod.snd).sum - 1|
      ≤ 1/1000000000 := by
  have h := C1_probabilities_normalized {} [⟨"A"⟩, ⟨"B"⟩] {} (fun _ => 0)
    (by simp) (by simp)
  exact ⟨⟨by simp, by simp⟩, h.1, h.2.2.2⟩

/-- JS array indexing within bounds yields a member. -/
theorem jsIndex_mem {α : Type} {l : List α} {i : ℤ} (h0 : 0 ≤ i) (hlt : i < (l.length : ℤ)) :
    ∃ a, jsIndex l i = some a ∧ a ∈ l := by
  have hn : i.toNat < l.length := by omega
  refine ⟨l.get ⟨i.toNat, hn⟩, ?_, List.get_mem l i.toNat hn⟩
  rw [jsIndex, if_pos h0]
  simp [List.getElem?_eq_getElem hn]

/-- Well-formedness of the shuffle data: whenever shuffle is on, the
permutation has the same length as the track list and all entries are
in-range indices.  Every reachable QueueManager state satisfies this,
since _updateShuffledIndices regenerates a Fisher-Yates permutation of the
current length on every track-list change and on enabling shuffle. -/
def shuffleWellFormed (q : QueueManager) : Prop :=
  q.shuffle = true →
    q.shuffledIndices.length = q.tracks.length ∧ ∀ j ∈ q.shuffledIndices, j < q.tracks.length

/-- getCurrentTrack returns a track at every in-range current index, given
well-formed shuffle data. -/
theorem getCurrentTrack_isSome {q : QueueManager} (hwf : shuffleWellFormed q)
    (h0 : 0 ≤ q.currentIndex) (hlt : q.currentIndex < (q.tracks.length : ℤ)) :
    (getCurrentTrack q).isSome = true := by
  have hcond : ¬(q.currentIndex = -1 ∨ q.tracks.length = 0) := by
    push_neg
    constructor
    · omega
    · omega
  rw [getCurrentTrack, if_neg hcond]
  by_cases hs : q.shuffle = true
  · obtain ⟨hlen, hmem⟩ := hwf hs
    obtain ⟨j, hj, hjmem⟩ := jsIndex_mem (l := q.shuffledIndices) h0 (by omega)
    rw [if_pos hs, hj]
    have hjlt : (j : ℤ) < (q.tracks.length : ℤ) := by
      exact_mod_cast hmem j hjmem
    obtain ⟨a, ha, _⟩ := jsIndex_mem (l := q.tracks) (Int.natCast_nonneg j) hjlt
    show (jsIndex q.tracks (j : ℤ)).isSome = true
    rw [ha]
    rfl
  · rw [if_neg hs]
    obtain ⟨a, ha, _⟩ := jsIndex_mem (l := q.tracks) h0 hlt
    rw [ha]
    rfl

/-- With probability mode off or no context supplied, next takes the
deterministic branch. -/
theorem next_deterministic (q : QueueManager) (context : Option Ctx) (rng : ℕ → ℚ) (r : ℚ)
    (hlen : q.tracks.length ≠ 0) (hdet : q.probabilityMode = false ∨ context = none) :
    next q context rng r = nextSequential q := by
  unfold next
  rw [if_neg hlen]
  rcases hdet with h | h
  · rw [h]
    cases context <;> rfl
  · rw [h]

/-- C6: with probability mode off or no context supplied, next() on a
non-empty playlist whose currentIndex is the last index returns null and
leaves the whole queue state unchanged when repeat is off, and wraps
currentIndex to 0 returning a track when repeat is on (for well-formed
shuffle data). -/
theorem C6_next_last_index (q : QueueManager) (context : Option Ctx) (rng : ℕ → ℚ) (r : ℚ)
    (hdet : q.probabilityMode = false ∨ context = none)
    (hne : q.tracks ≠ [])
    (hidx : q.currentIndex = (q.tracks.length : ℤ) - 1)
    (hwf : shuffleWellFormed q) :
    (q.repeatMode = false → next q context rng r = (none, q)) ∧
    (q.repeatMode = true →
      (next q context rng r).1.isSome = true ∧ (next q context rng r).2.currentIndex = 0) := by
  have hlen : q.tracks.length ≠ 0 := by
    simpa using hne
  rw [next_deterministic q context rng r hlen hdet]
  have hnotlt : ¬(q.currentIndex < (q.tracks.length : ℤ) - 1) := by omega
  constructor
  · intro hr
    rw [nextSequential, if_neg hnotlt, if_neg (by rw [hr]; exact Bool.false_ne_true)]
  · intro hr
    rw [nextSequential, if_neg hnotlt, if_pos hr]
    refine ⟨?_, rfl⟩
    exact getCurrentTrack_isSome (q := { q with currentIndex := 0 }) hwf
      (by show (0 : ℤ) ≤ 0; norm_num)
      (by show (0 : ℤ) < (q.tracks.length : ℤ); omega)

/-- C6 witness: a two-track queue with repeat on, standing at the last
index. -/
theorem C6_next_last_index_witness :
    ((next { tracks := [⟨"A"⟩, ⟨"B"⟩], currentIndex := 1, repeatMode := true } none
        (fun _ => 0) 0).1.isSome = true ∧
      (next { tracks := [⟨"A"⟩, ⟨"B"⟩], currentIndex := 1, repeatMode := true } none
        (fun _ => 0) 0).2.currentIndex = 0) := by
  exact (C6_next_last_index { tracks := [⟨"A"⟩, ⟨"B"⟩], currentIndex := 1, repeatMode := true }
    none (fun _ => 0) 0 (Or.inl rfl) (by simp) (by simp) (fun h => by simp at h)).2 rfl

/-- The empty queue with repeat enabled (reachable by calling
setRepeat(true) on a fresh QueueManager). -/
def qEmptyRepeat : QueueManager := { repeatMode := true }

/-- C7 counterexample: on the empty playlist with repeat enabled, hasNext
and hasPrevious return true, yet the deterministic next() and previous()
both return null — refuting the claimed equivalence for this queue
state. -/
theorem C7_empty_repeat_counterexample :
    hasNext qEmptyRepeat = true ∧ (next qEmptyRepeat none (fun _ => 0) 0).1 = none ∧
    hasPrevious qEmptyRepeat = true ∧ (previous qEmptyRepeat).1 = none := by
  exact ⟨rfl, rfl, rfl, rfl⟩

/-- C7 (amended): for every queue state that is well formed — currentIndex
within [-1, count - 1], shuffle data well formed, and repeat enabled only
on a non-empty playlist — hasNext() is true exactly when the deterministic
next() (probability branch not taken: no context supplied) returns a
track, and hasPrevious() is true exactly when previous() returns a track.
As literally stated the claim fails on the reachable state with an empty
playlist and repeat on, where hasNext/hasPrevious are true but
next/previous return null. -/
theorem C7_hasNext_hasPrevious_iff (q : QueueManager) (rng : ℕ → ℚ) (r : ℚ)
    (hwf : shuffleWellFormed q)
    (hlo : -1 ≤ q.currentIndex) (hhi : q.currentIndex ≤ (q.tracks.length : ℤ) - 1)
    (hrep : q.repeatMode = true → q.tracks ≠ []) :
    (hasNext q = true ↔ (next q none rng r).1.isSome = true) ∧
    (hasPrevious q = true ↔ (previous q).1.isSome = true) := by
  by_cases hlen : q.tracks.length = 0
  · have hrf : q.repeatMode = false := by
      cases hr : q.repeatMode
      · rfl
      · exact absurd (List.length_eq_zero.mp hlen) (hrep hr)
    have hci : q.currentIndex = -1 := by omega
    have hnext : next q none rng r = (none, q) := by
      unfold next
      rw [if_pos hlen]
    have hprev : previous q = (none, q) := by
      unfold previous
      rw [if_pos hlen]
    constructor
    · rw [hnext, hasNext, hrf, hci]
      simp [hlen]
    · rw [hprev, hasPrevious, hrf, hci]
      simp [hlen]
  · rw [next_deterministic q none rng r hlen (Or.inr rfl)]
    constructor
    · by_cases hci : q.currentIndex < (q.tracks.length : ℤ) - 1
      · have hsome : (nextSequential q).1.isSome = true := by
          rw [nextSequential, if_pos hci]
          exact getCurrentTrack_isSome (q := { q with currentIndex := q.currentIndex + 1 }) hwf
            (by show (0 : ℤ) ≤ q.currentIndex + 1; omega)
            (by show q.currentIndex + 1 < (q.tracks.length : ℤ); omega)
        rw [hsome, hasNext]
        simp [hci]
      · cases hr : q.repeatMode
        · have hnone : (nextSequential q).1 = none := by
            rw [nextSequential, if_neg hci, if_neg (by rw [hr]; exact Bool.false_ne_true)]
          rw [hasNext, hr, hnone]
          simp [hci]
        · have hsome : (nextSequential q).1.isSome = true := by
            rw [nextSequential, if_neg hci, if_pos hr]
            exact getCurrentTrack_isSome (q := { q with currentIndex := 0 }) hwf
              (by show (0 : ℤ) ≤ 0; norm_num)
              (by show (0 : ℤ) < (q.tracks.length : ℤ); omega)
          rw [hasNext, hr, hsome]
          simp
    · by_cases hci : 0 < q.currentIndex
      · have hsome : (previous q).1.isSome = true := by
          rw [previous, if_neg hlen, if_pos hci]
          exact getCurrentTrack_isSome (q := { q with currentIndex := q.currentIndex - 1 }) hwf
            (by show (0 : ℤ) ≤ q.currentIndex - 1; omega)
            (by show q.currentIndex - 1 < (q.tracks.length : ℤ); omega)
        rw [hasPrevious, hsome]
        simp [hci]
      · cases hr : q.repeatMode
        · have hnone : (previous q).1 = none := by
            rw [previous, if_neg hlen, if_neg hci, if_neg (by rw [hr]; exact Bool.false_ne_true)]
          rw [hasPrevious, hr, hnone]
          simp [hci]
        · have hsome : (previous q).1.isSome = true := by
            rw [previous, if_neg hlen, if_neg hci, if_pos hr]
            exact getCurrentTrack_isSome (q := { q with currentIndex := (q.tracks.length : ℤ) - 1 })
              hwf
              (by show (0 : ℤ) ≤ (q.tracks.length : ℤ) - 1; omega)
              (by show (q.tracks.length : ℤ) - 1 < (q.tracks.length : ℤ); omega)
          rw [hasPrevious, hr, hsome]
          simp

/-- C7 witness: a two-track queue standing at index 0: hasNext is true and
the deterministic next returns a track; hasPrevious is false and previous
returns null. -/
theorem C7_hasNext_hasPrevious_iff_witness :
    (hasNext { tracks := [⟨"A"⟩, ⟨"B"⟩], currentIndex := 0 } = true ↔
      (next { tracks := [⟨"A"⟩, ⟨"B"⟩], currentIndex := 0 } none (fun _ => 0) 0).1.isSome = true) ∧
    (hasPrevious { tracks := [⟨"A"⟩, ⟨"B"⟩], currentIndex := 0 } = true ↔
      (previous { tracks := [⟨"A"⟩, ⟨"B"⟩], currentIndex := 0 }).1.isSome = true) := by
  exact C7_hasNext_hasPrevious_iff { tracks := [⟨"A"⟩, ⟨"B"⟩], currentIndex := 0 } (fun _ => 0) 0
    (fun h => by simp at h) (by norm_num) (by norm_num) (fun h => by simp at h)

/-- Counting an id among mapped event ids counts the events carrying it. -/
theorem count_map_id (l : List ScheduledEvent) (x : String) :
    (l.map (fun e => e.id)).count x = (l.filter (fun e => e.id == x)).length := by
  induction l with
  | nil => rfl
  | cons e l ih =>
      simp only [List.map_cons, List.count_cons, List.filter_cons, ih]
      by_cases he : e.id = x
      · simp [he]
      · simp [he]

/-- Every id fired by a tick belongs to an event pending before it. -/
theorem tick_fired_sub (c : RuntimeClock) (now : ℚ) :
    ∀ x ∈ (tick c now).2, x ∈ c.events.map (fun e => e.id) := by
  intro x hx
  by_cases hp : c.paused = true
  · simp [tick, hp] at hx
  · simp only [tick, hp, if_false, Bool.false_eq_true, processEvents] at hx
    obtain ⟨ev, hev, rfl⟩ := List.mem_map.mp hx
    exact List.mem_map_of_mem _ (List.mem_of_mem_filter hev)

/-- Every event pending after a tick was pending before it. -/
theorem tick_events_sub (c : RuntimeClock) (now : ℚ) :
    ∀ ev ∈ (tick c now).1.events, ev ∈ c.events := by
  intro ev hev
  by_cases hp : c.paused = true
  · simp only [tick, hp, if_true] at hev
    exact hev
  · simp only [tick, hp, if_false, Bool.false_eq_true, processEvents] at hev
    exact List.mem_of_mem_filter hev

/-- An id with no pending event never fires and never reappears. -/
theorem notPending_run (eid : String) :
    ∀ (nows : List ℚ) (c : RuntimeClock), eid ∉ c.events.map (fun e => e.id) →
    (runTicks c nows).2.count eid = 0 ∧
      eid ∉ (runTicks c nows).1.events.map (fun e => e.id) := by
  intro nows
  induction nows with
  | nil => intro c h; exact ⟨by simp [runTicks], h⟩
  | cons now rest ih =>
      intro c h
      have h1 : eid ∉ (tick c now).1.events.map (fun e => e.id) := by
        intro hx
        obtain ⟨ev, hev, hid⟩ := List.mem_map.mp hx
        exact h (hid ▸ List.mem_map_of_mem _ (tick_events_sub c now ev hev))
      obtain ⟨hc, hr⟩ := ih (tick c now).1 h1
      have heq : runTicks c (now :: rest) =
          ((runTicks (tick c now).1 rest).1, (tick c now).2 ++ (runTicks (tick c now).1 rest).2) :=
        rfl
      rw [heq]
      refine ⟨?_, hr⟩
      rw [List.count_append, hc]
      have h0 : (tick c now).2.count eid = 0 :=
        List.count_eq_zero.mpr (fun hx => h (tick_fired_sub c now eid hx))
      omega

/-- The internal time reached by a tick at wall-clock instant now. -/
def tickTime (c : RuntimeClock) (now : ℚ) : ℚ :=
  c.internalTime + ((now - c.lastUpdate) / 1000) * c.timeScale

/-- Unfolded form of an unpaused tick. -/
theorem tick_eq (c : RuntimeClock) (now : ℚ) (hp : c.paused = false) :
    tick c now =
      ({ c with
          internalTime := tickTime c now
          lastUpdate := now
          events := c.events.filter (fun e => !e.triggered && decide (tickTime c now < e.time)) },
       (c.events.filter (fun e => !e.triggered && decide (e.time ≤ tickTime c now))).map
         (fun e => e.id)) := by
  simp only [tick, hp, Bool.false_eq_true, if_false, processEvents, tickTime]

/-- An id whose filter is empty is not among the event ids. -/
theorem not_mem_ids_of_filter_nil {l : List ScheduledEvent} {x : String}
    (h : l.filter (fun e => e.id == x) = []) : x ∉ l.map (fun e => e.id) := by
  intro hx
  obtain ⟨ev, hev, hid⟩ := List.mem_map.mp hx
  have : ev ∈ l.filter (fun e => e.id == x) := by
    rw [List.mem_filter]
    exact ⟨hev, by simp [hid]⟩
  rw [h] at this
  simp at this

/-- Core run lemma for claim C8: a clock with exactly one pending
untriggered event (eid, t) fires eid exactly once over any run of ticks —
namely at the first tick whose internal time reaches t — and eid is gone
from the pending set once any tick has reached t. -/
theorem pending_run (eid : String) (t : ℚ) :
    ∀ (nows : List ℚ) (c : RuntimeClock), c.paused = false →
    c.events.filter (fun e => e.id == eid) = [{ id := eid, time := t, triggered := false }] →
    ((runTicks c nows).2.count eid =
      if (internalTimes c nows).any (fun x => decide (t ≤ x)) then 1 else 0) ∧
    ((internalTimes c nows).any (fun x => decide (t ≤ x)) = true →
      eid ∉ (runTicks c nows).1.events.map (fun e => e.id)) := by
  intro nows
  induction nows with
  | nil =>
      intro c hp he
      refine ⟨by simp [runTicks, internalTimes], ?_⟩
      intro hany
      simp [internalTimes] at hany
  | cons now rest ih =>
      intro c hp he
      have htick := tick_eq c now hp
      have hrun : runTicks c (now :: rest) =
          ((runTicks (tick c now).1 rest).1,
           (tick c now).2 ++ (runTicks (tick c now).1 rest).2) := rfl
      have htimes : internalTimes c (now :: rest) =
          (tick c now).1.internalTime :: internalTimes (tick c now).1 rest := rfl
      have hit : (tick c now).1.internalTime = tickTime c now := by rw [htick]
      have hcount : (tick c now).2.count eid = if t ≤ tickTime c now then 1 else 0 := by
        rw [htick]
        simp only
        rw [count_map_id, List.filter_comm, he]
        by_cases hc : t ≤ tickTime c now
        · simp [List.filter_cons, hc]
        · simp [List.filter_cons, hc]
      by_cases hcross : t ≤ tickTime c now
      · have hgone : eid ∉ (tick c now).1.events.map (fun e => e.id) := by
          rw [htick]
          simp only
          apply not_mem_ids_of_filter_nil
          rw [List.filter_comm, he]
          simp [List.filter_cons]
          linarith
        obtain ⟨hz1, hz2⟩ := notPending_run eid rest (tick c now).1 hgone
        constructor
        · rw [hrun, htimes]
          simp only [List.count_append, hcount, hz1, List.any_cons, hit]
          simp [hcross]
        · intro hany
          rw [hrun]
          exact hz2
      · have hlt : tickTime c now < t := lt_of_not_le hcross
        have hkeep : (tick c now).1.events.filter (fun e => e.id == eid) =
            [{ id := eid, time := t, triggered := false }] := by
          rw [htick]
          simp only
          rw [List.filter_comm, he]
          simp [List.filter_cons, hlt]
        have hp1 : (tick c now).1.paused = false := by rw [htick]; exact hp
        obtain ⟨hz1, hz2⟩ := ih (tick c now).1 hp1 hkeep
        constructor
        · rw [hrun, htimes]
          simp only [List.count_append, hcount, hz1, List.any_cons, hit]
          simp [hcross]
        · intro hany
          rw [hrun]
          rw [htimes, List.any_cons, hit] at hany
          have hrest : (internalTimes (tick c now).1 rest).any (fun x => decide (t ≤ x)) = true := by
            simpa [hcross] using hany
          exact hz2 hrest

/-- Scheduling a fresh id yields exactly one pending event for it. -/
theorem scheduleEvent_filter (c : RuntimeClock) (t : ℚ) (eid : String)
    (hfresh : eid ∉ c.events.map (fun e => e.id)) :
    (scheduleEvent c t eid).events.filter (fun e => e.id == eid) =
      [{ id := eid, time := t, triggered := false }] := by
  have hnil : c.events.filter (fun e => e.id == eid) = [] := by
    rw [List.filter_eq_nil_iff]
    intro ev hev
    simp only [beq_iff_eq]
    intro hid
    exact hfresh (hid ▸ List.mem_map_of_mem _ hev)
  simp only [scheduleEvent, List.filter_append, hnil, List.nil_append, List.filter_cons]
  simp

/-- C8: for a clock holding a freshly scheduled event (eid, t) and any run
of ticks, the callback eid is invoked exactly once, at the first tick whose
internal time reaches t (in particular even when the internal time jumps
past t by more than one tick), and never before; once some tick has
reached t the event is absent from the pending set; and cancelEvent(eid)
before the run prevents the invocation entirely. -/
theorem C8_scheduled_event_fires_once (c : RuntimeClock) (eid : String) (t : ℚ)
    (nows : List ℚ) (hp : c.paused = false)
    (hfresh : eid ∉ c.events.map (fun e => e.id)) :
    (∀ k : ℕ, (runTicks (scheduleEvent c t eid) (nows.take k)).2.count eid =
      if (internalTimes (scheduleEvent c t eid) (nows.take k)).any (fun x => decide (t ≤ x))
      then 1 else 0) ∧
    ((internalTimes (scheduleEvent c t eid) nows).any (fun x => decide (t ≤ x)) = true →
      eid ∉ (runTicks (scheduleEvent c t eid) nows).1.events.map (fun e => e.id)) ∧
    (runTicks (cancelEvent (scheduleEvent c t eid) eid) nows).2.count eid = 0 := by
  have hp1 : (scheduleEvent c t eid).paused = false := hp
  have he := scheduleEvent_filter c t eid hfresh
  refine ⟨fun k => (pending_run eid t (nows.take k) (scheduleEvent c t eid) hp1 he).1,
          (pending_run eid t nows (scheduleEvent c t eid) hp1 he).2, ?_⟩
  have hnp : eid ∉ (cancelEvent (scheduleEvent c t eid) eid).events.map (fun e => e.id) := by
    intro hx
    obtain ⟨ev, hev, hid⟩ := List.mem_map.mp hx
    simp only [cancelEvent] at hev
    rw [List.mem_filter] at hev
    have : ev.id ≠ eid := by simpa using hev.2
    exact this hid
  exact (notPending_run eid nows (cancelEvent (scheduleEvent c t eid) eid) hnp).1

/-- C8 witness: scheduling at internal time 5 on a fresh clock and ticking
at wall-clock instants 2000 ms and 10000 ms (internal times 2 and 10, so
the second tick jumps past 5). -/
theorem C8_scheduled_event_fires_once_witness :
    ((runTicks (scheduleEvent {} 5 "e1") ([2000, 10000].take 2)).2.count "e1" =
      if (internalTimes (scheduleEvent {} 5 "e1") ([2000, 10000].take 2)).any
          (fun x => decide ((5 : ℚ) ≤ x)) then 1 else 0) ∧
    ((internalTimes (scheduleEvent {} 5 "e1") [2000, 10000]).any
        (fun x => decide ((5 : ℚ) ≤ x)) = true →
      "e1" ∉ (runTicks (scheduleEvent {} 5 "e1") [2000, 10000]).1.events.map (fun e => e.id)) ∧
    (runTicks (cancelEvent (scheduleEvent {} 5 "e1") "e1") [2000, 10000]).2.count "e1" = 0 := by
  have h := C8_scheduled_event_fires_once {} "e1" 5 [2000, 10000] rfl (by simp)
  exact ⟨h.1 2, h.2.1, h.2.2⟩

/-- The probability value a probabilities map assigns to an id (0 when the
id is absent, mirroring probabilities.get(id) || 0). -/
def valueOf (m : WMap) (x : String) : ℚ :=
  (wget m x).getD 0

/-- Tracks are determined by their id (the embedding keeps only the id
field, which is the unique key of the source data model). -/
theorem track_eq_of_id {t u : Track} (h : t.id = u.id) : t = u := by
  cases t
  cases u
  cases h
  rfl

/-- A Map.get hit is an entry of the map. -/
theorem wget_mem : ∀ {m : WMap} {x : String} {v : ℚ}, wget m x = some v → (x, v) ∈ m := by
  intro m
  induction m with
  | nil => intro x v h; simp [wget] at h
  | cons q m ih =>
      intro x v h
      obtain ⟨k, w⟩ := q
      by_cases hk : k = x
      · rw [wget, if_pos hk] at h
        subst hk
        rw [Option.some_inj] at h
        subst h
        exact List.mem_cons_self _ _
      · rw [wget, if_neg hk] at h
        exact List.mem_cons_of_mem _ (ih h)

/-- Map.get through the value-normalizing map. -/
theorem wget_map_div : ∀ (l : List (String × ℚ)) (d : ℚ) (x : String),
    wget (l.map (fun p => (p.1, p.2 / d))) x = (wget l x).map (· / d) := by
  intro l
  induction l with
  | nil => intro d x; rfl
  | cons p l ih =>
      intro d x
      obtain ⟨k, w⟩ := p
      by_cases hk : k = x
      · simp [wget, hk]
      · simp only [List.map_cons]
        rw [wget, if_neg hk, wget, if_neg hk, ih]

/-- An indexOf hit lies within the list. -/
theorem idxOf?_lt_length : ∀ {l : List String} {x : String} {j : ℕ},
    idxOf? l x = some j → j < l.length := by
  intro l
  induction l with
  | nil => intro x j h; simp [idxOf?] at h
  | cons a l ih =>
      intro x j h
      rw [idxOf?] at h
      by_cases hax : a = x
      · rw [if_pos hax, Option.some_inj] at h
        subst h
        simp
      · rw [if_neg hax] at h
        obtain ⟨j2, hj2, rfl⟩ := Option.map_eq_some'.mp h
        have := ih hj2
        simp
        omega

/-- Dropping the last element either preserves the first-occurrence index
of an id or removes the id entirely. -/
theorem idxOf?_dropLast : ∀ (l : List String) (x : String),
    idxOf? l.dropLast x = idxOf? l x ∨ idxOf? l.dropLast x = none := by
  intro l
  induction l with
  | nil => intro x; left; rfl
  | cons a l ih =>
      intro x
      cases l with
      | nil => right; rfl
      | cons b l2 =>
          have hd : (a :: b :: l2).dropLast = a :: (b :: l2).dropLast := rfl
          rw [hd]
          by_cases hax : a = x
          · left
            rw [idxOf?, if_pos hax, idxOf?, if_pos hax]
          · rw [idxOf?, if_neg hax, idxOf?, if_neg hax]
            rcases ih x with h | h
            · left; rw [h]
            · right; rw [h]; rfl

/-- The recent list produced by _recordSelection: unshift then conditional
pop of the oldest entry. -/
def recList (l : List String) (x : String) : List String :=
  if 5 < (x :: l).length then (x :: l).dropLast else x :: l

/-- recordSelection updates exactly the recent list, via recList. -/
theorem recordSelection_eq_recList (e : ProbabilityEngine) (x : String) :
    recordSelection e x = { e with recentTracks := recList e.recentTracks x } := rfl

/-- The freshly recorded id sits at index 0 of the recent list. -/
theorem idxOf?_recList_self (l : List String) (x : String) :
    idxOf? (recList l x) x = some 0 := by
  unfold recList
  split
  · rename_i h
    cases l with
    | nil => simp at h
    | cons b l2 =>
        have hd : (x :: b :: l2).dropLast = x :: (b :: l2).dropLast := rfl
        rw [hd, idxOf?, if_pos rfl]
  · rw [idxOf?, if_pos rfl]

/-- Other ids move to a strictly larger first-occurrence index (or leave
the recent window) when a new id is recorded. -/
theorem idxOf?_recList_ne {l : List String} {x y : String} (hxy : x ≠ y) :
    idxOf? (recList l x) y = (idxOf? l y).map (· + 1) ∨ idxOf? (recList l x) y = none := by
  have hcons : idxOf? (x :: l) y = (idxOf? l y).map (· + 1) := by
    rw [idxOf?, if_neg hxy]
  unfold recList
  split
  · rcases idxOf?_dropLast (x :: l) y with h | h
    · left; rw [h, hcons]
    · right; exact h
  · left; exact hcons

/-- The recency factor of the freshly recorded id is exactly 0.3 (maximal
penalty). -/
theorem recencyFactor_recList_self (l : List String) (x : String) :
    recencyFactor (recList l x) x = 3/10 := by
  rw [recencyFactor, idxOf?_recList_self]
  norm_num

/-- With at most 5 recent entries, an id that is not the most recent one
has recency factor at least 0.44 (and at most 1). -/
theorem recencyFactor_not_head {l : List String} {y : String}
    (hnot : idxOf? l y ≠ some 0) (h5 : l.length ≤ 5) :
    11/25 ≤ recencyFactor l y := by
  cases hiy : idxOf? l y with
  | none =>
      rw [recencyFactor, hiy]
      norm_num
  | some j =>
      have hj : j < l.length := idxOf?_lt_length hiy
      have hj1 : 1 ≤ j := by
        rcases Nat.eq_zero_or_pos j with h0 | h0
        · exact absurd (h0 ▸ hiy) hnot
        · exact h0
      rw [recencyFactor, hiy]
      have hc1 : (1 : ℚ) ≤ (j : ℚ) := by exact_mod_cast hj1
      have hc2 : (j : ℚ) ≤ 5 := by
        have : j ≤ 5 := by omega
        exact_mod_cast this
      nlinarith

/-- Recording a different id never decreases the recency factor of an id,
for recent lists within the 5-entry cap. -/
theorem recencyFactor_le_recList {l : List String} {x y : String} (hxy : x ≠ y)
    (h5 : l.length ≤ 5) :
    recencyFactor l y ≤ recencyFactor (recList l x) y := by
  cases hiy : idxOf? l y with
  | none =>
      have hafter : idxOf? (recList l x) y = none := by
        rcases idxOf?_recList_ne (l := l) hxy with h | h
        · rw [h, hiy]; rfl
        · exact h
      rw [recencyFactor, recencyFactor, hiy, hafter]
  | some j =>
      have hj : j < l.length := idxOf?_lt_length hiy
      have hc2 : (j : ℚ) ≤ 4 := by
        have : j ≤ 4 := by omega
        exact_mod_cast this
      have hc0 : (0 : ℚ) ≤ (j : ℚ) := by positivity
      rcases idxOf?_recList_ne (l := l) hxy with h | h
      · rw [recencyFactor, recencyFactor, hiy, h, hiy]
        simp only [Option.map_some']
        push_cast
        nlinarith
      · rw [recencyFactor, recencyFactor, hiy, h]
        nlinarith

/-- Lower bound 0.1 on the stored-or-default weight read by the engine. -/
theorem jsWeightOr_ge {m : WMap} {x : String}
    (hw : ∀ p ∈ m, 1/10 ≤ p.2) : 1/10 ≤ jsWeightOr m x 1 := by
  rw [jsWeightOr]
  cases hg : wget m x with
  | none => norm_num
  | some v =>
      have hv : 1/10 ≤ v := hw (x, v) (wget_mem hg)
      have : ¬(v = 0) := by intro h; rw [h] at hv; norm_num at hv
      simp only [this, if_false]
      exact hv

/-- Lower bound 0.85 on the energy factor for energy in [0, 1]. -/
theorem energyFactor_ge {energy : ℚ} (h0 : 0 ≤ energy) :
    17/20 ≤ energyFactor energy := by
  rw [energyFactor]
  nlinarith

/-- Lower bound 0.8 on the flow factor for a nonnegative random draw. -/
theorem flowFactor_ge {flow r : ℚ} (hr : 0 ≤ r) : 4/5 ≤ flowFactor flow r := by
  rw [flowFactor]
  split
  · norm_num
  · split
    · nlinarith
    · norm_num

/-- Lower bound 0.9 on the time-of-day weight. -/
theorem timeWeight_ge (hour : ℤ) : 9/10 ≤ timeWeight hour := by
  rw [timeWeight]
  split
  · norm_num
  · split
    · norm_num
    · split
      · norm_num
      · norm_num

/-- The raw weight splits as recency factor times the recency-independent
base. -/
theorem rawWeight_factor (w : WMap) (rc : List String) (c : Ctx) (r : ℚ) (t : Track) :
    rawWeight w rc c r t = recencyFactor rc t.id *
      (jsWeightOr w t.id 1 * energyFactor c.energy * flowFactor c.flow r * timeWeight c.hour) := by
  rw [rawWeight]
  ring

/-- Lower bound on the product of the four recency-independent factors. -/
theorem mul4_lb {a b f g : ℚ} (ha : 1/10 ≤ a) (hb : 17/20 ≤ b) (hf : 4/5 ≤ f)
    (hg : 9/10 ≤ g) : 153/2500 ≤ a * b * f * g := by
  have h0a : (0 : ℚ) ≤ a := by linarith
  have hab : 17/200 ≤ a * b := by
    calc (17/200 : ℚ) = (1/10) * (17/20) := by norm_num
    _ ≤ a * b := mul_le_mul ha hb (by norm_num) h0a
  have h0ab : (0 : ℚ) ≤ a * b := by linarith
  have habf : 17/250 ≤ a * b * f := by
    calc (17/250 : ℚ) = (17/200) * (4/5) := by norm_num
    _ ≤ a * b * f := mul_le_mul hab hf (by norm_num) h0ab
  have h0abf : (0 : ℚ) ≤ a * b * f := by linarith
  calc (153/2500 : ℚ) = (17/250) * (9/10) := by norm_num
  _ ≤ a * b * f * g := mul_le_mul habf hg (by norm_num) h0abf

/-- Strict decrease of the clamped weight of the just-selected track, under
reachable engine bounds: stored weights at least 0.1, energy in [0, 1],
nonnegative random factor, recent list within the cap, and the track not
already the most recent selection. -/
theorem clamped_T_strict {w : WMap} {rc : List String} {c : Ctx} {T : Track}
    (hw : ∀ p ∈ w, 1/10 ≤ p.2) (he0 : 0 ≤ c.energy)
    (hnot : idxOf? rc T.id ≠ some 0) (h5 : rc.length ≤ 5) :
    ∀ ρ, 0 ≤ ρ →
      clampedWeight w (recList rc T.id) c ρ T < clampedWeight w rc c ρ T := by
  intro ρ hρ
  have hb1 : 1/10 ≤ jsWeightOr w T.id 1 := jsWeightOr_ge hw
  have hb2 : 17/20 ≤ energyFactor c.energy := energyFactor_ge he0
  have hb3 : 4/5 ≤ flowFactor c.flow ρ := flowFactor_ge hρ
  have hb4 : 9/10 ≤ timeWeight c.hour := timeWeight_ge c.hour
  have hbase_lb : 153/2500 ≤
      jsWeightOr w T.id 1 * energyFactor c.energy * flowFactor c.flow ρ * timeWeight c.hour :=
    mul4_lb hb1 hb2 hb3 hb4
  have hbase_pos : 0 <
      jsWeightOr w T.id 1 * energyFactor c.energy * flowFactor c.flow ρ * timeWeight c.hour := by
    linarith
  have hrecb : 11/25 ≤ recencyFactor rc T.id := recencyFactor_not_head hnot h5
  have hraw_before : rawWeight w rc c ρ T = recencyFactor rc T.id *
      (jsWeightOr w T.id 1 * energyFactor c.energy * flowFactor c.flow ρ * timeWeight c.hour) :=
    rawWeight_factor w rc c ρ T
  have hraw_after : rawWeight w (recList rc T.id) c ρ T = (3/10) *
      (jsWeightOr w T.id 1 * energyFactor c.energy * flowFactor c.flow ρ * timeWeight c.hour) := by
    rw [rawWeight_factor, recencyFactor_recList_self]
  have hprod : (11/25) * (153/2500) ≤ recencyFactor rc T.id *
      (jsWeightOr w T.id 1 * energyFactor c.energy * flowFactor c.flow ρ * timeWeight c.hour) :=
    mul_le_mul hrecb hbase_lb (by norm_num) (le_trans (by norm_num) hrecb)
  have hlb : 1/100 < rawWeight w rc c ρ T := by
    rw [hraw_before]
    linarith
  have hstrict : rawWeight w (recList rc T.id) c ρ T < rawWeight w rc c ρ T := by
    rw [hraw_before, hraw_after]
    exact mul_lt_mul_of_pos_right (lt_of_lt_of_le (by norm_num) hrecb) hbase_pos
  rw [clampedWeight, clampedWeight, max_eq_left (le_of_lt hlb)]
  exact max_lt hstrict hlb

/-- Recording the selected id never decreases the clamped weight of any
other track. -/
theorem clamped_other_mono {w : WMap} {rc : List String} {c : Ctx} {x : String} {t : Track}
    (hw : ∀ p ∈ w, 1/10 ≤ p.2) (he0 : 0 ≤ c.energy) (hne : x ≠ t.id) (h5 : rc.length ≤ 5) :
    ∀ ρ, 0 ≤ ρ →
      clampedWeight w rc c ρ t ≤ clampedWeight w (recList rc x) c ρ t := by
  intro ρ hρ
  have hb1 : 1/10 ≤ jsWeightOr w t.id 1 := jsWeightOr_ge hw
  have hb2 : 17/20 ≤ energyFactor c.energy := energyFactor_ge he0
  have hb3 : 4/5 ≤ flowFactor c.flow ρ := flowFactor_ge hρ
  have hb4 : 9/10 ≤ timeWeight c.hour := timeWeight_ge c.hour
  have hbase_nonneg : 0 ≤
      jsWeightOr w t.id 1 * energyFactor c.energy * flowFactor c.flow ρ * timeWeight c.hour := by
    have := mul4_lb hb1 hb2 hb3 hb4
    linarith
  have hrec := recencyFactor_le_recList (l := rc) (x := x) (y := t.id) hne h5
  have hraw : rawWeight w rc c ρ t ≤ rawWeight w (recList rc x) c ρ t := by
    rw [rawWeight_factor, rawWeight_factor]
    exact mul_le_mul_of_nonneg_right hrec hbase_nonneg
  exact max_le_max hraw le_rfl

/-- Pointwise monotone clamped weights give monotone totals. -/
theorem sumClamped_mono {w : WMap} {c : Ctx} {rng : ℕ → ℚ} {rc rc2 : List String}
    (hrng : ∀ n, 0 ≤ rng n) :
    ∀ (ts : List Track) (i : ℕ),
    (∀ t ∈ ts, ∀ ρ, 0 ≤ ρ → clampedWeight w rc c ρ t ≤ clampedWeight w rc2 c ρ t) →
    sumClamped w rc c rng ts i ≤ sumClamped w rc2 c rng ts i := by
  intro ts
  induction ts with
  | nil => intro i h; simp [sumClamped, clampedList]
  | cons t ts ih =>
      intro i h
      have h1 : clampedWeight w rc c (rng i) t ≤ clampedWeight w rc2 c (rng i) t :=
        h t (List.mem_cons_self _ _) (rng i) (hrng i)
      have h2 := ih (i + 1) (fun u hu => h u (List.mem_cons_of_mem _ hu))
      have e1 : sumClamped w rc c rng (t :: ts) i =
          clampedWeight w rc c (rng i) t + sumClamped w rc c rng ts (i + 1) := rfl
      have e2 : sumClamped w rc2 c rng (t :: ts) i =
          clampedWeight w rc2 c (rng i) t + sumClamped w rc2 c rng ts (i + 1) := rfl
      rw [e1, e2]
      linarith

/-- The total clamped weight dominates the track count times the floor. -/
theorem sumClamped_ge_length (w : WMap) (rc : List String) (c : Ctx) (rng : ℕ → ℚ) :
    ∀ (ts : List Track) (i : ℕ), (ts.length : ℚ) * (1/100) ≤ sumClamped w rc c rng ts i := by
  intro ts
  induction ts with
  | nil => intro i; simp [sumClamped, clampedList]
  | cons t ts ih =>
      intro i
      have h1 : (1 : ℚ)/100 ≤ clampedWeight w rc c (rng i) t := le_max_right _ _
      have h2 := ih (i + 1)
      have e1 : sumClamped w rc c rng (t :: ts) i =
          clampedWeight w rc c (rng i) t + sumClamped w rc c rng ts (i + 1) := rfl
      rw [e1]
      simp only [List.length_cons]
      push_cast
      linarith

/-- Comparison of the clamped-weight tables before and after recording the
selection: the selected track strictly loses clamped weight while the rest
of the total does not decrease, and the rest of the total is at least
(length - 1) of the 0.01 floors. -/
theorem sum_compare {w : WMap} {c : Ctx} {rng : ℕ → ℚ} {rc rc2 : List String} {T : Track}
    (hrng : ∀ n, 0 ≤ rng n)
    (hT : ∀ ρ, 0 ≤ ρ → clampedWeight w rc2 c ρ T < clampedWeight w rc c ρ T)
    (hO : ∀ t : Track, t.id ≠ T.id → ∀ ρ, 0 ≤ ρ →
      clampedWeight w rc c ρ t ≤ clampedWeight w rc2 c ρ t) :
    ∀ (ts : List Track) (i : ℕ), T ∈ ts → (ts.map Track.id).Nodup →
    ∃ wT wT2,
      wget (clampedList w rc c rng ts i) T.id = some wT ∧
      wget (clampedList w rc2 c rng ts i) T.id = some wT2 ∧
      wT2 < wT ∧
      sumClamped w rc c rng ts i - wT ≤ sumClamped w rc2 c rng ts i - wT2 ∧
      ((ts.length : ℚ) - 1) * (1/100) ≤ sumClamped w rc c rng ts i - wT := by
  intro ts
  induction ts with
  | nil => intro i h; intro _; simp at h
  | cons t ts ih =>
      intro i hmem hnd
      rw [List.map_cons, List.nodup_cons] at hnd
      have e1 : sumClamped w rc c rng (t :: ts) i =
          clampedWeight w rc c (rng i) t + sumClamped w rc c rng ts (i + 1) := rfl
      have e2 : sumClamped w rc2 c rng (t :: ts) i =
          clampedWeight w rc2 c (rng i) t + sumClamped w rc2 c rng ts (i + 1) := rfl
      by_cases hid : t.id = T.id
      · have hTt : t = T := track_eq_of_id hid
        subst hTt
        have hother : ∀ u ∈ ts, ∀ ρ, 0 ≤ ρ →
            clampedWeight w rc c ρ u ≤ clampedWeight w rc2 c ρ u := by
          intro u hu
          refine hO u ?_
          intro hbad
          exact hnd.1 (hbad ▸ List.mem_map_of_mem Track.id hu)
        refine ⟨clampedWeight w rc c (rng i) t, clampedWeight w rc2 c (rng i) t, ?_, ?_,
          hT (rng i) (hrng i), ?_, ?_⟩
        · show (if t.id = t.id then some (clampedWeight w rc c (rng i) t)
            else wget (clampedList w rc c rng ts (i + 1)) t.id) = _
          rw [if_pos rfl]
        · show (if t.id = t.id then some (clampedWeight w rc2 c (rng i) t)
            else wget (clampedList w rc2 c rng ts (i + 1)) t.id) = _
          rw [if_pos rfl]
        · rw [e1, e2]
          have := @sumClamped_mono w c rng rc rc2 hrng ts (i + 1) hother
          linarith
        · rw [e1]
          have := sumClamped_ge_length w rc c rng ts (i + 1)
          simp only [List.length_cons]
          push_cast
          linarith
      · have hmem2 : T ∈ ts := by
          rcases List.mem_cons.mp hmem with h | h
          · exact absurd (by rw [h]) hid
          · exact h
        obtain ⟨wT, wT2, h1, h2, h3, h4, h5⟩ := ih (i + 1) hmem2 hnd.2
        have hho : clampedWeight w rc c (rng i) t ≤ clampedWeight w rc2 c (rng i) t :=
          hO t hid (rng i) (hrng i)
        have h1c : (1 : ℚ)/100 ≤ clampedWeight w rc c (rng i) t := le_max_right _ _
        refine ⟨wT, wT2, ?_, ?_, h3, ?_, ?_⟩
        · show (if t.id = T.id then some (clampedWeight w rc c (rng i) t)
            else wget (clampedList w rc c rng ts (i + 1)) T.id) = _
          rw [if_neg hid]
          exact h1
        · show (if t.id = T.id then some (clampedWeight w rc2 c (rng i) t)
            else wget (clampedList w rc2 c rng ts (i + 1)) T.id) = _
          rw [if_neg hid]
          exact h2
        · rw [e1, e2]
          linarith
        · rw [e1]
          simp only [List.length_cons]
          push_cast
          linarith

/-- A successful selection records exactly the returned track and returns a
member of the list. -/
theorem selectNextTrack_some {e : ProbabilityEngine} {tracks : List Track} {c : Ctx}
    {rng : ℕ → ℚ} {r : ℚ} {T : Track}
    (hsel : (selectNextTrack e tracks c rng r).1 = some T) :
    (selectNextTrack e tracks c rng r).2 = recordSelection e T.id ∧ T ∈ tracks := by
  cases hlast : tracks.getLast? with
  | none =>
      have heq : selectNextTrack e tracks c rng r = (none, e) := by
        simp only [selectNextTrack, hlast]
      rw [heq] at hsel
      simp at hsel
  | some lastTrack =>
      cases hwalk : walkTracks (calculateProbabilities e tracks c rng) r tracks 0 with
      | some u =>
          have heq : selectNextTrack e tracks c rng r = (some u, recordSelection e u.id) := by
            simp only [selectNextTrack, hlast, hwalk]
          rw [heq] at hsel ⊢
          simp only [Option.some_inj] at hsel
          subst hsel
          exact ⟨rfl, walkTracks_mem hwalk⟩
      | none =>
          have heq : selectNextTrack e tracks c rng r =
              (some lastTrack, recordSelection e lastTrack.id) := by
            simp only [selectNextTrack, hlast, hwalk]
          rw [heq] at hsel ⊢
          simp only [Option.some_inj] at hsel
          subst hsel
          exact ⟨rfl, mem_of_getLast?_eq hlast⟩

/-- C5 (amended): on a track list with at least two tracks and distinct
ids, after selectNextTrack returns track T, the next calculateProbabilities
call with the same context and random stream assigns T a strictly lower
value than the call before the selection — provided T was not already the
most recent entry of the selection history, the engine state is within its
reachable bounds (stored weights at least 0.1, at most 5 recent entries),
the context energy lies in [0, 1] and the random stream is nonnegative. -/
theorem C5_recency_penalty_strict (e : ProbabilityEngine) (tracks : List Track) (c : Ctx)
    (rng : ℕ → ℚ) (r : ℚ) (T : Track)
    (hnd : (tracks.map Track.id).Nodup)
    (hlen2 : 2 ≤ tracks.length)
    (hsel : (selectNextTrack e tracks c rng r).1 = some T)
    (hnot : idxOf? e.recentTracks T.id ≠ some 0)
    (hrec5 : e.recentTracks.length ≤ 5)
    (hw : ∀ p ∈ e.trackWeights, 1/10 ≤ p.2)
    (he0 : 0 ≤ c.energy)
    (hrng : ∀ n, 0 ≤ rng n) :
    valueOf (calculateProbabilities (selectNextTrack e tracks c rng r).2 tracks c rng) T.id <
      valueOf (calculateProbabilities e tracks c rng) T.id := by
  obtain ⟨hsnd, hmem⟩ := selectNextTrack_some hsel
  rw [hsnd, recordSelection_eq_recList]
  have hT := @clamped_T_strict e.trackWeights e.recentTracks c T hw he0 hnot hrec5
  have hO : ∀ t : Track, t.id ≠ T.id → ∀ ρ, 0 ≤ ρ →
      clampedWeight e.trackWeights e.recentTracks c ρ t ≤
        clampedWeight e.trackWeights (recList e.recentTracks T.id) c ρ t := by
    intro t hne2
    exact clamped_other_mono hw he0 (fun hh => hne2 hh.symm) hrec5
  obtain ⟨wT, wT2, hg1, hg2, hlt, hS, hlen⟩ :=
    @sum_compare e.trackWeights c rng e.recentTracks (recList e.recentTracks T.id) T
      hrng hT hO tracks 0 hmem hnd
  have hv1 : valueOf (calculateProbabilities e tracks c rng) T.id =
      wT / sumClamped e.trackWeights e.recentTracks c rng tracks 0 := by
    rw [valueOf, calculateProbabilities_eq e tracks c rng hnd, wget_map_div, hg1]
    rfl
  have hproj1 : ({ e with recentTracks := recList e.recentTracks T.id } :
      ProbabilityEngine).trackWeights = e.trackWeights := rfl
  have hproj2 : ({ e with recentTracks := recList e.recentTracks T.id } :
      ProbabilityEngine).recentTracks = recList e.recentTracks T.id := rfl
  have hv2 : valueOf (calculateProbabilities
        { e with recentTracks := recList e.recentTracks T.id } tracks c rng) T.id =
      wT2 / sumClamped e.trackWeights (recList e.recentTracks T.id) c rng tracks 0 := by
    rw [valueOf, calculateProbabilities_eq _ tracks c rng hnd, hproj1, hproj2,
      wget_map_div, hg2]
    rfl
  have hwT2lb : 1/100 ≤ wT2 :=
    clampedList_ge _ _ _ _ tracks 0 (T.id, wT2) (wget_mem hg2)
  have hwTlb : 1/100 ≤ wT :=
    clampedList_ge _ _ _ _ tracks 0 (T.id, wT) (wget_mem hg1)
  have hc2 : (2 : ℚ) ≤ (tracks.length : ℚ) := by exact_mod_cast hlen2
  have hrest : (1 : ℚ)/100 ≤ sumClamped e.trackWeights e.recentTracks c rng tracks 0 - wT := by
    linarith
  have ht1pos : 0 < sumClamped e.trackWeights e.recentTracks c rng tracks 0 := by linarith
  have ht2pos : 0 < sumClamped e.trackWeights (recList e.recentTracks T.id) c rng tracks 0 := by
    linarith
  rw [hv1, hv2, div_lt_div_iff₀ ht2pos ht1pos]
  have k1 : wT2 * (sumClamped e.trackWeights e.recentTracks c rng tracks 0 - wT) <
      wT * (sumClamped e.trackWeights e.recentTracks c rng tracks 0 - wT) :=
    mul_lt_mul_of_pos_right hlt (lt_of_lt_of_le (by norm_num) hrest)
  have k2 : wT * (sumClamped e.trackWeights e.recentTracks c rng tracks 0 - wT) ≤
      wT * (sumClamped e.trackWeights (recList e.recentTracks T.id) c rng tracks 0 - wT2) :=
    mul_le_mul_of_nonneg_left hS (by linarith)
  nlinarith [k1, k2]

/-- The two distinct ids used in concrete instances. -/
theorem idA_ne_idB : ("A" : String) ≠ "B" := by decide

/-- The two distinct ids used in concrete instances, reversed. -/
theorem idB_ne_idA : ("B" : String) ≠ "A" := by decide

/-- Engine state for the C5 counterexample: the track A is already the most
recent selection. -/
def eC5 : ProbabilityEngine := { recentTracks := ["A"] }

/-- C5 counterexample: on the two-track list [A, B] with A already the most
recent selection, the draw 0.1 selects A again, and the next
calculateProbabilities call assigns A exactly the same value as the call
before the selection (3/13 both times) — not a strictly lower one, because
A stays at recency index 0. -/
theorem C5_already_most_recent_counterexample :
    (selectNextTrack eC5 [⟨"A"⟩, ⟨"B"⟩] {} (fun _ => 0) (1/10)).1 = some ⟨"A"⟩ ∧
    valueOf (calculateProbabilities (selectNextTrack eC5 [⟨"A"⟩, ⟨"B"⟩] {} (fun _ => 0) (1/10)).2
        [⟨"A"⟩, ⟨"B"⟩] {} (fun _ => 0)) "A" =
      valueOf (calculateProbabilities eC5 [⟨"A"⟩, ⟨"B"⟩] {} (fun _ => 0)) "A" := by
  constructor <;>
    norm_num [eC5, selectNextTrack, calculateProbabilities, calcFold, clampedWeight,
      rawWeight, jsWeightOr, wget, wset, recencyFactor, idxOf?, energyFactor, flowFactor,
      timeWeight, walkTracks, recordSelection, valueOf, idA_ne_idB, idB_ne_idA]

/-- C5 witness: fresh engine, two tracks, draw 0.1 selects A; the value of
A drops from 1/2 to 3/13. -/
theorem C5_recency_penalty_strict_witness :
    (selectNextTrack {} [⟨"A"⟩, ⟨"B"⟩] {} (fun _ => 0) (1/10)).1 = some ⟨"A"⟩ ∧
    valueOf (calculateProbabilities (selectNextTrack {} [⟨"A"⟩, ⟨"B"⟩] {} (fun _ => 0) (1/10)).2
        [⟨"A"⟩, ⟨"B"⟩] {} (fun _ => 0)) (Track.mk "A").id <
      valueOf (calculateProbabilities {} [⟨"A"⟩, ⟨"B"⟩] {} (fun _ => 0)) (Track.mk "A").id := by
  have hsel : (selectNextTrack {} [⟨"A"⟩, ⟨"B"⟩] {} (fun _ => 0) (1/10)).1 = some ⟨"A"⟩ := by
    norm_num [selectNextTrack, calculateProbabilities, calcFold, clampedWeight,
      rawWeight, jsWeightOr, wget, wset, recencyFactor, idxOf?, energyFactor, flowFactor,
      timeWeight, walkTracks, idA_ne_idB, idB_ne_idA]
  exact ⟨hsel, C5_recency_penalty_strict {} [⟨"A"⟩, ⟨"B"⟩] {} (fun _ => 0) (1/10) ⟨"A"⟩
    (by simp) (by norm_num) hsel (by simp [idxOf?]) (by simp) (by simp) (by norm_num)
    (fun n => le_refl 0)⟩
